import Mathlib

/-!
Verification development for the job-market-analysis pipeline.

The definitions below are a shallow embedding of the aggregation,
canonicalization, ranking and gap-analysis logic of
`old/job_market_multi_agent.py`, of the resume PDF tool
(`resume_pdf_tool.py`), and of the Google-jobs collector tool
(`google_jobs_tool.py`).

Modelling conventions:
- Python strings are Lean `String` (lists of unicode characters);
  `str.lower` is modelled by `Char.toLower` (ASCII lowering, which agrees
  with Python on the ASCII tokens this pipeline handles).
- Python `dict` and `collections.Counter` are association lists that keep
  insertion order, exactly as Python dicts do; a Python `set` built from a
  list is modelled by first-occurrence deduplication (`uniq`), a
  deterministic refinement of Python's unspecified set iteration order
  (no property proved below depends on that order).
- Python floats are modelled as exact rationals; `round(x, 1)` is
  round-half-to-even at one decimal, Python's rounding mode.
- Fallible code (exceptions) is modelled with `Except`.
-/

/-- Whitespace characters recognised by Python `str.strip()` and the
regex class `\s` (ASCII range). -/
def pyWS (c : Char) : Bool :=
  c == ' ' || c == '\t' || c == '\n' || c == '\r' ||
  c == Char.ofNat 11 || c == Char.ofNat 12

/-- Characters stripped by `normalize_token`: Python
`t.strip(" ,.;:-_/\\()[]\x7b\x7d\"'")`. -/
def stripChars : List Char :=
  [' ', ',', '.', ';', ':', '-', '_', '/', '\\', '(', ')', '[', ']',
   Char.ofNat 123, Char.ofNat 125, Char.ofNat 34, Char.ofNat 39]

/-- Membership in the `normalize_token` strip set. -/
def inStripSet (c : Char) : Bool := stripChars.contains c

/-- Drop characters satisfying `p` from the front (Python `lstrip`). -/
def stripLeft (p : Char → Bool) (l : List Char) : List Char := l.dropWhile p

/-- Drop characters satisfying `p` from the back (Python `rstrip`). -/
def stripRight (p : Char → Bool) (l : List Char) : List Char :=
  (l.reverse.dropWhile p).reverse

/-- Python `str.strip` with a character predicate. -/
def pyStrip (p : Char → Bool) (l : List Char) : List Char :=
  stripRight p (stripLeft p l)

/-- Collapse every run of whitespace to a single space, as
`re.sub(r"\s+", " ", t)` does; the flag records whether the previous
character was part of a whitespace run. -/
def collapseWSAux : List Char → Bool → List Char
  | [], _ => []
  | c :: rest, prev =>
    if pyWS c then
      if prev then collapseWSAux rest true
      else ' ' :: collapseWSAux rest true
    else c :: collapseWSAux rest false

/-- Character-list core of `normalize_token`: strip whitespace, lowercase,
collapse internal whitespace runs, then trim punctuation. -/
def normTokL (l : List Char) : List Char :=
  pyStrip inStripSet (collapseWSAux ((pyStrip pyWS l).map Char.toLower) false)

/-- Embedding of `normalize_token` from `old/job_market_multi_agent.py`. -/
def normalize_token (s : String) : String := String.mk (normTokL s.toList)

/-- Python truthiness test `x and x.strip()` used to filter raw tokens:
the string is nonempty and contains a non-whitespace character. -/
def pyTruthyStrip (s : String) : Bool :=
  !(s == "") && !(pyStrip pyWS s.toList).isEmpty

/-- First-occurrence deduplication, the model of building a Python `set`
from a list (order refined deterministically). -/
def uniqAux : List String → List String → List String
  | [], acc => acc.reverse
  | x :: xs, acc => if x ∈ acc then uniqAux xs acc else uniqAux xs (x :: acc)

/-- Deduplicate a list of strings keeping first occurrences. -/
def uniq (l : List String) : List String := uniqAux l []

/-- A `collections.Counter` over strings: an insertion-ordered association
list from key to count. -/
abbrev Cnt := List (String × Nat)

/-- Counter lookup (`counter[k]`, returning 0 for absent keys). -/
def cntGet (c : Cnt) (k : String) : Nat :=
  match c.find? (fun p => p.1 == k) with
  | some p => p.2
  | none => 0

/-- Keys of a counter / association list, in insertion order. -/
def cntKeys (c : Cnt) : List String := c.map Prod.fst

/-- Add `n` to key `k` of a counter: existing keys keep their position,
new keys are appended, as in Python dict update semantics. -/
def cntIncBy (c : Cnt) (k : String) (n : Nat) : Cnt :=
  if c.any (fun p => p.1 == k) then
    c.map (fun p => if p.1 == k then (p.1, p.2 + n) else p)
  else c ++ [(k, n)]

/-- Model of `Counter.update(iterable)`: add one per listed element. -/
def cntUpdateSet (c : Cnt) (ks : List String) : Cnt :=
  ks.foldl (fun a k => cntIncBy a k 1) c

/-- Model of `Counter.update(mapping)`: add the counts of another counter. -/
def cntAddCounts (c d : Cnt) : Cnt :=
  d.foldl (fun a p => cntIncBy a p.1 p.2) c

/-- Per-document token set used by `compute_document_frequency`:
`set(normalize_token(x) for x in items if x and x.strip())`. -/
def docUnique (items : List String) : List String :=
  uniq ((items.filter pyTruthyStrip).map normalize_token)

/-- Embedding of `compute_document_frequency`: document-frequency counter
plus the total document count. -/
def compute_document_frequency (docs : List (List String)) : Cnt × Nat :=
  (docs.foldl (fun df items => cntUpdateSet df (docUnique items)) [],
   docs.length)

/-- Round-half-to-even to an integer, Python's rounding mode for `round`. -/
def roundHalfEven (q : ℚ) : ℤ :=
  let n := Int.floor q
  let f := q - n
  if f < 1/2 then n
  else if 1/2 < f then n + 1
  else if n % 2 = 0 then n else n + 1

/-- Python `round(q, 1)` on an exact rational. -/
def pyRound1 (q : ℚ) : ℚ := (roundHalfEven (q * 10) : ℚ) / 10

/-- One output row of `to_table`: item, document count, percentage. -/
structure TRow where
  item : String
  count : Nat
  percent : ℚ
deriving Repr, DecidableEq

/-- Stable insertion of one element: `x` is placed before the first `y`
with `le x y`; used to model Python's stable `sorted`. -/
def insSorted (le : (String × Nat) → (String × Nat) → Bool)
    (x : String × Nat) : Cnt → Cnt
  | [] => [x]
  | y :: ys => if le x y then x :: y :: ys else y :: insSorted le x ys

/-- Stable insertion sort (`foldr`, so original order is kept on ties). -/
def sortCnt (le : (String × Nat) → (String × Nat) → Bool) (l : Cnt) : Cnt :=
  l.foldr (insSorted le) []

/-- Descending-by-count comparison used by `Counter.most_common`. -/
def leDescCount (x y : String × Nat) : Bool := y.2 ≤ x.2

/-- Model of `Counter.most_common()`: all entries sorted by count descending,
ties keeping insertion order (Python's sort is stable). -/
def mostCommon (c : Cnt) : Cnt := sortCnt leDescCount c

/-- Model of `Counter.most_common(n)` with optional `n`. -/
def mostCommonTop (c : Cnt) : Option Nat → Cnt
  | none => mostCommon c
  | some n => (mostCommon c).take n

/-- Embedding of `to_table`: ranked rows with percentage of documents
(`(v / total * 100) if total else 0.0`, rounded to one decimal). -/
def to_table (c : Cnt) (total : Nat) (top : Option Nat) : List TRow :=
  (mostCommonTop c top).map (fun p =>
    { item := p.1, count := p.2,
      percent := pyRound1 (if total = 0 then 0 else (p.2 : ℚ) / (total : ℚ) * 100) })

/-- Per-posting structured extraction (the four category lists used by
`analyze`; the optional free-form category is not consumed there). -/
structure Extraction where
  skills : List String
  tools : List String
  cloud_platforms : List String
  certifications : List String
deriving Repr, DecidableEq

/-- A Python `dict` from string to string, insertion ordered. -/
abbrev SMap := List (String × String)

/-- Lookup `m.get(k, d)` on a string dict. -/
def dictGet (m : SMap) (k d : String) : String :=
  match m.find? (fun p => p.1 == k) with
  | some p => p.2
  | none => d

/-- Lookup `m.get(k)` returning an optional value. -/
def dictFind (m : SMap) (k : String) : Option String :=
  (m.find? (fun p => p.1 == k)).map Prod.snd

/-- The per-token operation of `apply_map` and of the resume-set
construction: `canonical_map.get(normalize_token(x), normalize_token(x))`. -/
def applyTok (cm : SMap) (x : String) : String :=
  dictGet cm (normalize_token x) (normalize_token x)

/-- Embedding of the inner `apply_map` of `analyze`: canonicalize each
token and drop the empty results. -/
def apply_map (cm : SMap) (lst : List String) : List String :=
  (lst.map (applyTok cm)).filter (fun o => o != "")

/-- Combined per-posting skill-and-tool lists: `list(set(s + t))`. -/
def combinedPerJob (cm : SMap) (je : List Extraction) : List (List String) :=
  ((je.map (fun x => apply_map cm x.skills)).zip
    (je.map (fun x => apply_map cm x.tools))).map (fun st => uniq (st.1 ++ st.2))

/-- Per-posting canonicalized cloud-platform lists. -/
def cloudsPerJob (cm : SMap) (je : List Extraction) : List (List String) :=
  je.map (fun x => apply_map cm x.cloud_platforms)

/-- Per-posting canonicalized certification lists. -/
def certsPerJob (cm : SMap) (je : List Extraction) : List (List String) :=
  je.map (fun x => apply_map cm x.certifications)

/-- The candidate's canonicalized item set (modelled as a list whose
membership is the Python set membership). -/
def resumeItems (cm : SMap) (r : Extraction) : List String :=
  (r.skills ++ r.tools ++ r.certifications ++ r.cloud_platforms).map (applyTok cm)

/-- Combined market counter: skills DF, then certifications DF, then
cloud DF, added in the order `analyze` updates them. -/
def marketOf (cm : SMap) (je : List Extraction) : Cnt :=
  cntAddCounts
    (cntAddCounts
      (cntAddCounts [] (compute_document_frequency (combinedPerJob cm je)).1)
      (compute_document_frequency (certsPerJob cm je)).1)
    (compute_document_frequency (cloudsPerJob cm je)).1

/-- The full missing-item ranking of `analyze`:
`[item for item, _ in market.most_common() if item and item not in resume_items]`. -/
def missingOf (cm : SMap) (je : List Extraction) (r : Extraction) : List String :=
  ((mostCommon (marketOf cm je)).map Prod.fst).filter
    (fun item => item != "" && !(decide (item ∈ resumeItems cm r)))

/-- Result record of `analyze`. -/
structure AnalyzeResult where
  n : Nat
  skills_table : List TRow
  clouds_table : List TRow
  certs_table : List TRow
  top10_missing : List String
deriving Repr, DecidableEq

/-- Embedding of `analyze` from `old/job_market_multi_agent.py`. -/
def analyze (job_extractions : List Extraction) (resume_extraction : Extraction)
    (canonical_map : SMap) : AnalyzeResult :=
  let sk := compute_document_frequency (combinedPerJob canonical_map job_extractions)
  let cl := compute_document_frequency (cloudsPerJob canonical_map job_extractions)
  let ce := compute_document_frequency (certsPerJob canonical_map job_extractions)
  { n := job_extractions.length
  , skills_table := to_table sk.1 sk.2 none
  , clouds_table := to_table cl.1 sk.2 none
  , certs_table := to_table ce.1 sk.2 (some 30)
  , top10_missing := (missingOf canonical_map job_extractions resume_extraction).take 10 }

/-- Lexicographic code-point comparison on character lists, Python's `<`
on strings. -/
def strLtb : List Char → List Char → Bool
  | [], [] => false
  | [], _ :: _ => true
  | _ :: _, [] => false
  | a :: as, b :: bs => if a < b then true else if b < a then false else strLtb as bs

/-- Python string comparison `a < b`. -/
def pyStrLt (a b : String) : Bool := strLtb a.toList b.toList

/-- Ascending string insertion used for Python `sorted` on strings. -/
def insStrAsc (x : String) : List String → List String
  | [] => [x]
  | y :: ys => if pyStrLt y x then y :: insStrAsc x ys else x :: y :: ys

/-- Python `sorted` on a list of strings. -/
def sortStrings (l : List String) : List String := l.foldr insStrAsc []

/-- Embedding of `canonicalize_items`: the oracle's proposed map is an
association list; every unique normalized input token gets exactly one
entry, defaulting to itself when the oracle omits it or its normalized
label is empty. -/
def canonicalize_items (oracle : SMap) (items : List String) : SMap :=
  let unique_items := sortStrings (uniq ((items.filter pyTruthyStrip).map normalize_token))
  if unique_items.isEmpty then []
  else unique_items.map (fun it =>
    let mapped := normalize_token (dictGet oracle it it)
    (it, if mapped = "" then it else mapped))

/-- Embedding of `ResumePDFTextTool._run` (`resume_pdf_tool.py`, the tool
the crew pipeline of `build_crew.py` registers): raises when the file is
missing, joins the extracted page texts, strips them, and raises when no
text remains. The old pipeline's `run` does NOT use this tool; see
`resumePDFToolRunOld` below. -/
def resumePDFTextToolRun (fileExists : Bool) (pages : List String) : Except String String :=
  if !fileExists then Except.error "Resume file not found"
  else
    let text := String.mk (pyStrip pyWS (String.intercalate "\n" pages).toList)
    if text = "" then Except.error "No text could be extracted from the PDF."
    else Except.ok text

/-- Embedding of `ResumePDFTool._run` (`old/tools.py`), the tool
`extract_resume` in `old/job_market_multi_agent.py` actually calls:
raises only when the file is missing; otherwise it returns the joined
page texts unconditionally, even when that string is empty (a no-text
PDF raises nothing here). -/
def resumePDFToolRunOld (fileExists : Bool) (pages : List String) : Except String String :=
  if !fileExists then Except.error "Resume file not found"
  else Except.ok (String.intercalate "\n" pages)

/-- Control-flow model of `run` (`old/job_market_multi_agent.py`) from the
resume-extraction step onward: `extract_resume` invokes the old
`ResumePDFTool` with no surrounding try/except, so the only exception
that can arise there — the missing-file error — propagates out of `run`
before `analyze`; otherwise the returned text (possibly empty) is handed
to the resume-extraction oracle and `analyze` produces the report data
on the ordinary path. -/
def runPipeline (job_extractions : List Extraction) (canonical_map : SMap)
    (fileExists : Bool) (pages : List String)
    (extractOracle : String → Extraction) : Except String AnalyzeResult :=
  match resumePDFToolRunOld fileExists pages with
  | Except.error e => Except.error e
  | Except.ok text =>
      Except.ok (analyze job_extractions (extractOracle text) canonical_map)

/-- Normalization used by the Google-jobs tool:
`re.sub(r"\s+", " ", (s or "").strip().lower())`. -/
def gNorm (s : String) : String :=
  String.mk (collapseWSAux ((pyStrip pyWS s.toList).map Char.toLower) false)

/-- ASCII letter test for the regex class `[a-zA-Z]`. -/
def isAsciiAlpha (c : Char) : Bool :=
  (97 ≤ c.toNat && c.toNat ≤ 122) || (65 ≤ c.toNat && c.toNat ≤ 90)

/-- Maximal runs of ASCII letters, as `re.findall(r"[a-zA-Z]+", s)`;
the accumulator holds the current run reversed. -/
def alphaRunsAux : List Char → List Char → List String
  | [], acc => if acc.isEmpty then [] else [String.mk acc.reverse]
  | c :: rest, acc =>
    if isAsciiAlpha c then alphaRunsAux rest (c :: acc)
    else if acc.isEmpty then alphaRunsAux rest []
    else String.mk acc.reverse :: alphaRunsAux rest []

/-- Letter tokens of a string (`re.findall(r"[a-zA-Z]+", _normalize(s))`). -/
def wordsAlpha (s : String) : List String := alphaRunsAux (gNorm s).toList []

/-- Embedding of `_title_is_similar` (`google_jobs_tool.py`): token-set
overlap relative to the target title's token count, threshold 0.6
(the float literal is the exact rational 3/5 on these small token sets). -/
def titleSimilar (found : String) (targets : List String) : Bool :=
  let ft := uniq (wordsAlpha found)
  if ft.isEmpty then false
  else targets.any (fun tt =>
    let tts := uniq (wordsAlpha tt)
    if tts.isEmpty then false
    else decide ((3 : ℚ) / 5 ≤
      ((tts.filter (fun w => decide (w ∈ ft))).length : ℚ) / (max 1 tts.length : ℚ)))

/-- One raw job from a search-API response (the fields the collector's
filtering, deduplication and limit logic reads; fields merely copied
from the network oracle into the output are elided). -/
structure RawJob where
  title : String
  company : String
  location : String
deriving Repr, DecidableEq

/-- Deduplication key of a posting: the normalized
(title, company, location) triple. -/
def jobKey (j : RawJob) : String × String × String :=
  (gNorm j.title, gNorm j.company, gNorm j.location)

/-- Inner loop of `GoogleJobsCollectorTool._run` over one search response:
skip dissimilar titles, skip already-seen keys, append, and return early
(flag `true`) once the limit is reached. -/
def collectJobs (targets : List String) (limit : Nat) :
    List RawJob → List RawJob → List (String × String × String) →
    List RawJob × List (String × String × String) × Bool
  | [], collected, seen => (collected, seen, false)
  | j :: rest, collected, seen =>
    if !titleSimilar j.title targets then collectJobs targets limit rest collected seen
    else if jobKey j ∈ seen then collectJobs targets limit rest collected seen
    else
      let collected2 := collected ++ [j]
      if limit ≤ collected2.length then (collected2, jobKey j :: seen, true)
      else collectJobs targets limit rest collected2 (jobKey j :: seen)

/-- Outer loop of `_run` over the per-title search responses. -/
def collectResponses (targets : List String) (limit : Nat) :
    List (List RawJob) → List RawJob → List (String × String × String) → List RawJob
  | [], collected, _ => collected
  | jobs :: restR, collected, seen =>
    match collectJobs targets limit jobs collected seen with
    | (c2, s2, early) => if early then c2 else collectResponses targets limit restR c2 s2

/-- Embedding of `GoogleJobsCollectorTool._run`: one opaque search
response per target title (the query string only parameterizes the
network oracle), filtered, deduplicated and truncated as in the source. -/
def googleJobsRun (job_titles : List String) (responses : List (List RawJob))
    (limit : Nat) : List RawJob :=
  collectResponses job_titles limit ((job_titles.zip responses).map Prod.snd) [] []

/-! Normalization lemmas: `normalize_token` is idempotent. -/

/-- Packing a small codepoint and reading it back is the identity. -/
theorem charToNat_ofNat_of_lt {n : Nat} (h : n < 55296) : (Char.ofNat n).toNat = n := by
  have hv : n.isValidChar := Or.inl h
  simp [Char.ofNat, dif_pos hv, Char.ofNatAux, Char.toNat, UInt32.toNat]

/-- Lowercasing fixes characters outside the uppercase ASCII range. -/
theorem toLower_eq_self {c : Char} (h : ¬(65 ≤ c.toNat ∧ c.toNat ≤ 90)) :
    Char.toLower c = c := by
  unfold Char.toLower
  simp only [ge_iff_le]
  rw [if_neg h]

/-- ASCII lowercasing is idempotent. -/
theorem toLower_toLower (c : Char) : Char.toLower (Char.toLower c) = Char.toLower c := by
  by_cases h : 65 ≤ c.toNat ∧ c.toNat ≤ 90
  · have h1 : Char.toLower c = Char.ofNat (c.toNat + 32) := by
      unfold Char.toLower
      simp only [ge_iff_le]
      rw [if_pos h]
    have h2 : (Char.toLower c).toNat = c.toNat + 32 := by
      rw [h1]; exact charToNat_ofNat_of_lt (by omega)
    exact toLower_eq_self (by omega)
  · rw [toLower_eq_self h]; exact toLower_eq_self h

/-- Characters in the collapsed list are spaces or non-whitespace input
characters. -/
theorem mem_collapseWSAux :
    ∀ (l : List Char) (b : Bool) (c : Char), c ∈ collapseWSAux l b →
      c = ' ' ∨ (c ∈ l ∧ pyWS c = false)
  | [], _, c, h => by simp [collapseWSAux] at h
  | a :: rest, b, c, h => by
    have hrec : ∀ b2, c ∈ collapseWSAux rest b2 → c = ' ' ∨ (c ∈ a :: rest ∧ pyWS c = false) := by
      intro b2 hm
      rcases mem_collapseWSAux rest b2 c hm with h1 | ⟨h2, h3⟩
      · exact Or.inl h1
      · exact Or.inr ⟨List.mem_cons_of_mem _ h2, h3⟩
    cases ha : pyWS a with
    | true =>
      cases b with
      | true =>
        simp only [collapseWSAux, ha, if_true] at h
        exact hrec true h
      | false =>
        simp only [collapseWSAux, ha, if_true, if_false] at h
        rcases List.mem_cons.mp h with h | h
        · exact Or.inl h
        · exact hrec true h
    | false =>
      simp only [collapseWSAux, ha, Bool.false_eq_true, if_false] at h
      rcases List.mem_cons.mp h with h | h
      · subst h
        exact Or.inr ⟨List.mem_cons_self _ _, ha⟩
      · exact hrec false h

/-- No-adjacent-whitespace relation on characters. -/
def noWsPair (a b : Char) : Prop := pyWS a = false ∨ pyWS b = false

/-- Collapsed lists have no two adjacent whitespace characters, and with
the flag set the output starts with a non-whitespace character. -/
theorem collapse_chain : ∀ (l : List Char),
    (List.Chain' noWsPair (collapseWSAux l true) ∧
      ∀ c, (collapseWSAux l true).head? = some c → pyWS c = false) ∧
    List.Chain' noWsPair (collapseWSAux l false)
  | [] => by simp [collapseWSAux]
  | a :: rest => by
    rcases collapse_chain rest with ⟨⟨ct, ht⟩, cf⟩
    cases ha : pyWS a with
    | true =>
      refine ⟨⟨?_, ?_⟩, ?_⟩
      · simp only [collapseWSAux, ha, if_true]; exact ct
      · simp only [collapseWSAux, ha, if_true]; exact ht
      · simp only [collapseWSAux, ha, if_true, if_false]
        refine List.chain'_cons'.mpr ⟨?_, ct⟩
        intro y hy
        exact Or.inr (ht y hy)
    | false =>
      have hcons : List.Chain' noWsPair (a :: collapseWSAux rest false) := by
        refine List.chain'_cons'.mpr ⟨?_, cf⟩
        intro y _
        exact Or.inl ha
      refine ⟨⟨?_, ?_⟩, ?_⟩
      · simp only [collapseWSAux, ha, Bool.false_eq_true, if_false]; exact hcons
      · simp only [collapseWSAux, ha, Bool.false_eq_true, if_false]
        intro c hc
        simp only [List.head?_cons, Option.some.injEq] at hc
        subst hc
        exact ha
      · simp only [collapseWSAux, ha, Bool.false_eq_true, if_false]; exact hcons

/-- A list whose whitespace is single interior spaces is a fixpoint of
whitespace collapsing. -/
theorem collapse_fix : ∀ (l : List Char),
    (∀ c ∈ l, pyWS c = true → c = ' ') → List.Chain' noWsPair l →
    collapseWSAux l false = l
  | [], _, _ => rfl
  | a :: rest, hws, hch => by
    have hrest : collapseWSAux rest false = rest :=
      collapse_fix rest (fun c hc => hws c (List.mem_cons_of_mem _ hc)) hch.tail
    cases ha : pyWS a with
    | true =>
      have haeq : a = ' ' := hws a (List.mem_cons_self _ _) ha
      simp only [collapseWSAux, ha, if_true, if_false]
      cases rest with
      | nil => simp [collapseWSAux, haeq]
      | cons d rest2 =>
        have hd : pyWS d = false := by
          rcases List.chain'_cons.mp hch with ⟨hpair, _⟩
          rcases hpair with h | h
          · rw [ha] at h; cases h
          · exact h
        simp only [collapseWSAux, hd, Bool.false_eq_true, if_false] at hrest ⊢
        rw [haeq, hrest]
    | false =>
      simp only [collapseWSAux, ha, Bool.false_eq_true, if_false]
      rw [hrest]

/-- The head of a `dropWhile` result fails the predicate. -/
theorem head?_dropWhile (p : Char → Bool) :
    ∀ (l : List Char) (c : Char), (l.dropWhile p).head? = some c → p c = false
  | [], c, h => by simp [List.dropWhile] at h
  | a :: rest, c, h => by
    cases ha : p a with
    | true =>
      rw [List.dropWhile_cons, if_pos (by rw [ha])] at h
      exact head?_dropWhile p rest c h
    | false =>
      rw [List.dropWhile_cons, if_neg (by rw [ha]; exact Bool.false_ne_true)] at h
      simp only [List.head?_cons, Option.some.injEq] at h
      subst h
      exact ha

/-- A list whose head fails `p` is untouched by `dropWhile`. -/
theorem dropWhile_eq_self_of_head (p : Char → Bool) (l : List Char)
    (h : ∀ c, l.head? = some c → p c = false) : l.dropWhile p = l := by
  cases l with
  | nil => rfl
  | cons a rest =>
    rw [List.dropWhile_cons, if_neg (by rw [h a rfl]; exact Bool.false_ne_true)]

/-- The strip result is a sublist of the input. -/
theorem pyStrip_sublist (p : Char → Bool) (l : List Char) : (pyStrip p l).Sublist l := by
  have h1 : (stripLeft p l).Sublist l := List.dropWhile_sublist p
  have h2 := (@List.dropWhile_sublist _ ((stripLeft p l).reverse) p).reverse
  rw [List.reverse_reverse] at h2
  exact (h2.trans h1 : ((stripLeft p l).reverse.dropWhile p).reverse.Sublist l)

/-- The strip result is an initial segment of the left-stripped list. -/
theorem pyStrip_front (p : Char → Bool) (l : List Char) :
    pyStrip p l <+: stripLeft p l := by
  rcases @List.dropWhile_suffix _ ((stripLeft p l).reverse) p with ⟨t, ht⟩
  refine ⟨t.reverse, ?_⟩
  have h2 := congrArg List.reverse ht
  simpa [pyStrip, stripRight, List.reverse_append] using h2

/-- The strip result is a contiguous segment of the input. -/
theorem pyStrip_inside (p : Char → Bool) (l : List Char) : pyStrip p l <:+: l := by
  have h1 : stripLeft p l <:+ l := List.dropWhile_suffix p
  have h2 := List.IsPrefix.isInfix (pyStrip_front p l)
  have h3 := List.IsSuffix.isInfix h1
  exact List.IsInfix.trans h2 h3

/-- Heads propagate along initial segments of lists. -/
theorem head?_of_front {l1 l2 : List Char} {c : Char} (hp : l1 <+: l2)
    (h : l1.head? = some c) : l2.head? = some c := by
  rcases hp with ⟨t, ht⟩
  cases l1 with
  | nil => cases h
  | cons a t1 =>
    simp only [List.head?_cons, Option.some.injEq] at h
    rw [← ht, List.cons_append, List.head?_cons, h]

/-- The head of a stripped list fails the predicate. -/
theorem head?_pyStrip (p : Char → Bool) (l : List Char) (c : Char)
    (h : (pyStrip p l).head? = some c) : p c = false :=
  head?_dropWhile p l c (head?_of_front (pyStrip_front p l) h)

/-- The last character of a stripped list fails the predicate. -/
theorem getLast?_pyStrip (p : Char → Bool) (l : List Char) (c : Char)
    (h : (pyStrip p l).getLast? = some c) : p c = false := by
  rw [pyStrip, stripRight, List.getLast?_reverse] at h
  exact head?_dropWhile p (stripLeft p l).reverse c h

/-- Strip is the identity when both ends fail the predicate. -/
theorem pyStrip_eq_self (p : Char → Bool) (y : List Char)
    (hh : ∀ c, y.head? = some c → p c = false)
    (hl : ∀ c, y.getLast? = some c → p c = false) : pyStrip p y = y := by
  have h1 : stripLeft p y = y := dropWhile_eq_self_of_head p y hh
  rw [pyStrip, h1, stripRight]
  have h2 : y.reverse.dropWhile p = y.reverse := by
    apply dropWhile_eq_self_of_head
    intro c hc
    rw [List.head?_reverse] at hc
    exact hl c hc
  rw [h2, List.reverse_reverse]

/-- Mapping `toLower` over an already-lowered list is the identity. -/
theorem map_toLower_eq_self (y : List Char) (h : ∀ c ∈ y, Char.toLower c = c) :
    y.map Char.toLower = y := by
  induction y with
  | nil => rfl
  | cons a t ih =>
    rw [List.map_cons, h a (List.mem_cons_self _ _),
      ih (fun c hc => h c (List.mem_cons_of_mem _ hc))]

/-- Structural facts about the output of `normTokL`: all characters are
lowered, whitespace occurs only as single interior spaces, and neither
end lies in the strip set. -/
theorem normTokL_chars (l : List Char) :
    (∀ c ∈ normTokL l, Char.toLower c = c ∧ (pyWS c = true → c = ' ')) ∧
    List.Chain' noWsPair (normTokL l) ∧
    (∀ c, (normTokL l).head? = some c → inStripSet c = false) ∧
    (∀ c, (normTokL l).getLast? = some c → inStripSet c = false) := by
  refine ⟨?_, ?_, ?_, ?_⟩
  · intro c hc
    have hc3 : c ∈ collapseWSAux ((pyStrip pyWS l).map Char.toLower) false :=
      (pyStrip_sublist inStripSet _).subset hc
    rcases mem_collapseWSAux _ false c hc3 with h1 | ⟨h2, h3⟩
    · subst h1
      exact ⟨by decide, fun _ => rfl⟩
    · rcases List.mem_map.mp h2 with ⟨c0, _, hc0⟩
      refine ⟨by rw [← hc0]; exact toLower_toLower c0, ?_⟩
      intro hws
      rw [h3] at hws
      cases hws
  · have h2 := pyStrip_inside inStripSet
      (collapseWSAux ((pyStrip pyWS l).map Char.toLower) false)
    exact List.Chain'.infix ((collapse_chain _).2) h2
  · exact fun c => head?_pyStrip inStripSet _ c
  · exact fun c => getLast?_pyStrip inStripSet _ c

/-- A list with the structural properties of a normalized token is a
fixpoint of `normTokL`. -/
theorem normTokL_fix (y : List Char)
    (h1 : ∀ c ∈ y, Char.toLower c = c ∧ (pyWS c = true → c = ' '))
    (h2 : List.Chain' noWsPair y)
    (h3 : ∀ c, y.head? = some c → inStripSet c = false)
    (h4 : ∀ c, y.getLast? = some c → inStripSet c = false) :
    normTokL y = y := by
  have hspace : inStripSet ' ' = true := by decide
  have hws_head : ∀ c, y.head? = some c → pyWS c = false := by
    intro c hc
    cases hws : pyWS c with
    | false => rfl
    | true =>
      exfalso
      have hmem : c ∈ y := by
        cases y with
        | nil => cases hc
        | cons a t =>
          simp only [List.head?_cons, Option.some.injEq] at hc
          subst hc
          exact List.mem_cons_self _ _
      have hsp : c = ' ' := (h1 c hmem).2 hws
      have hns := h3 c hc
      rw [hsp, hspace] at hns
      cases hns
  have hws_last : ∀ c, y.getLast? = some c → pyWS c = false := by
    intro c hc
    cases hws : pyWS c with
    | false => rfl
    | true =>
      exfalso
      have hmem : c ∈ y := by
        rw [← List.head?_reverse] at hc
        have : c ∈ y.reverse := by
          cases hy : y.reverse with
          | nil => rw [hy] at hc; cases hc
          | cons a t =>
            rw [hy] at hc
            simp only [List.head?_cons, Option.some.injEq] at hc
            subst hc
            exact List.mem_cons_self _ _
        exact List.mem_reverse.mp this
      have hsp : c = ' ' := (h1 c hmem).2 hws
      have hns := h4 c hc
      rw [hsp, hspace] at hns
      cases hns
  have hstep1 : pyStrip pyWS y = y := pyStrip_eq_self pyWS y hws_head hws_last
  have hstep2 : y.map Char.toLower = y := map_toLower_eq_self y (fun c hc => (h1 c hc).1)
  have hstep3 : collapseWSAux y false = y :=
    collapse_fix y (fun c hc => (h1 c hc).2) h2
  rw [normTokL, hstep1, hstep2, hstep3]
  exact pyStrip_eq_self inStripSet y h3 h4

/-- The character-level normalizer is idempotent. -/
theorem normTokL_idem (l : List Char) : normTokL (normTokL l) = normTokL l := by
  rcases normTokL_chars l with ⟨h1, h2, h3, h4⟩
  exact normTokL_fix (normTokL l) h1 h2 h3 h4

/-- Normalization `normalize_token` is idempotent. -/
theorem normalize_token_idem (s : String) :
    normalize_token (normalize_token s) = normalize_token s := by
  simp only [normalize_token]
  rw [show (String.mk (normTokL s.toList)).toList = normTokL s.toList from rfl,
    normTokL_idem]

/-- Whitespace-only strings normalize to the empty string. -/
theorem normalize_token_of_ws (s : String) (h : ∀ c ∈ s.toList, pyWS c = true) :
    normalize_token s = "" := by
  have h1 : stripLeft pyWS s.toList = [] := by
    rw [stripLeft, List.dropWhile_eq_nil_iff]
    intro a ha
    exact h a ha
  have h2 : pyStrip pyWS s.toList = [] := by
    rw [pyStrip, h1]
    rfl
  rw [normalize_token, normTokL, h2]
  rfl

/-! Lemmas on deduplication and counters. -/

/-- Membership in the deduplication accumulator. -/
theorem mem_uniqAux : ∀ (l acc : List String) (x : String),
    x ∈ uniqAux l acc ↔ x ∈ l ∨ x ∈ acc
  | [], acc, x => by simp [uniqAux]
  | a :: t, acc, x => by
    by_cases ha : a ∈ acc
    · rw [uniqAux, if_pos ha, mem_uniqAux t acc x]
      constructor
      · rintro (h | h)
        · exact Or.inl (List.mem_cons_of_mem _ h)
        · exact Or.inr h
      · rintro (h | h)
        · rcases List.mem_cons.mp h with h | h
          · subst h; exact Or.inr ha
          · exact Or.inl h
        · exact Or.inr h
    · rw [uniqAux, if_neg ha, mem_uniqAux t (a :: acc) x]
      simp only [List.mem_cons]
      tauto

/-- The deduplication accumulator stays duplicate-free. -/
theorem nodup_uniqAux : ∀ (l acc : List String), acc.Nodup → (uniqAux l acc).Nodup
  | [], acc, h => by
    rw [uniqAux]
    exact List.nodup_reverse.mpr h
  | a :: t, acc, h => by
    by_cases ha : a ∈ acc
    · rw [uniqAux, if_pos ha]
      exact nodup_uniqAux t acc h
    · rw [uniqAux, if_neg ha]
      exact nodup_uniqAux t (a :: acc) (List.nodup_cons.mpr ⟨ha, h⟩)

/-- Deduplication preserves membership. -/
theorem mem_uniq (l : List String) (x : String) : x ∈ uniq l ↔ x ∈ l := by
  rw [uniq, mem_uniqAux]
  simp

/-- Deduplication output has no duplicates. -/
theorem nodup_uniq (l : List String) : (uniq l).Nodup :=
  nodup_uniqAux l [] List.nodup_nil

/-- Mapping the increment-at-`k` function does not change other lookups. -/
theorem cntGet_map_inc_ne (c : Cnt) (k k2 : String) (n : Nat) (h : k2 ≠ k) :
    cntGet (c.map (fun p => if p.1 == k then (p.1, p.2 + n) else p)) k2 = cntGet c k2 := by
  induction c with
  | nil => rfl
  | cons p rest ih =>
    by_cases hp : p.1 = k2
    · have hpk : (p.1 == k) = false := by
        simp only [beq_eq_false_iff_ne, ne_eq, hp]
        exact h
      simp only [List.map_cons, cntGet, List.find?_cons, hpk, Bool.false_eq_true, if_false,
        show (p.1 == k2) = true by simp [hp]]
    · have hfind : (p.1 == k2) = false := by simp [hp]
      by_cases hpk : p.1 = k
      · simp only [List.map_cons, cntGet, List.find?_cons,
          show (p.1 == k) = true by simp [hpk], if_true, hfind]
        simp only [cntGet] at ih
        simpa [hfind] using ih
      · simp only [List.map_cons, cntGet, List.find?_cons,
          show (p.1 == k) = false by simp [hpk], Bool.false_eq_true, if_false, hfind]
        simp only [cntGet] at ih
        simpa [hfind] using ih

/-- Appending a fresh key-count pair does not change other lookups. -/
theorem cntGet_append_ne (c : Cnt) (k k2 : String) (n : Nat) (h : k2 ≠ k) :
    cntGet (c ++ [(k, n)]) k2 = cntGet c k2 := by
  induction c with
  | nil => simp [cntGet, List.find?_cons, show (k == k2) = false by simp [Ne.symm h]]
  | cons p rest ih =>
    by_cases hp : p.1 = k2
    · simp [cntGet, List.find?_cons, show (p.1 == k2) = true by simp [hp]]
    · have hfind : (p.1 == k2) = false := by simp [hp]
      simp only [List.cons_append, cntGet, List.find?_cons, hfind, Bool.false_eq_true, if_false]
      simp only [cntGet] at ih
      exact ih

/-- Incrementing a different key leaves a lookup unchanged. -/
theorem cntGet_cntIncBy_ne (c : Cnt) (k k2 : String) (n : Nat) (h : k2 ≠ k) :
    cntGet (cntIncBy c k n) k2 = cntGet c k2 := by
  rw [cntIncBy]
  by_cases hany : c.any (fun p => p.1 == k)
  · rw [if_pos hany]
    exact cntGet_map_inc_ne c k k2 n h
  · rw [if_neg hany]
    exact cntGet_append_ne c k k2 n h

/-- Mapping the increment-at-`k` function adds `n` to a present key. -/
theorem cntGet_map_inc_self (c : Cnt) (k : String) (n : Nat)
    (hany : c.any (fun p => p.1 == k) = true) :
    cntGet (c.map (fun p => if p.1 == k then (p.1, p.2 + n) else p)) k = cntGet c k + n := by
  induction c with
  | nil => cases hany
  | cons p rest ih =>
    by_cases hp : p.1 = k
    · simp only [List.map_cons, show (p.1 == k) = true by simp [hp], if_true, cntGet,
        List.find?_cons, show (p.1 == k) = true by simp [hp]]
    · have hfind : (p.1 == k) = false := by simp [hp]
      have hrest : rest.any (fun p => p.1 == k) = true := by
        simp only [List.any_cons, hfind, Bool.false_or] at hany
        exact hany
      simp only [List.map_cons, hfind, Bool.false_eq_true, if_false, cntGet,
        List.find?_cons, hfind]
      simp only [cntGet] at ih
      simpa [hfind] using ih hrest

/-- Appending a fresh key-count pair sets its lookup. -/
theorem cntGet_append_self (c : Cnt) (k : String) (n : Nat)
    (hnone : c.any (fun p => p.1 == k) = false) :
    cntGet (c ++ [(k, n)]) k = cntGet c k + n := by
  induction c with
  | nil => simp [cntGet, List.find?_cons]
  | cons p rest ih =>
    have hp : (p.1 == k) = false := by
      simp only [List.any_cons, Bool.or_eq_false_iff] at hnone
      exact hnone.1
    have hrest : rest.any (fun p => p.1 == k) = false := by
      simp only [List.any_cons, Bool.or_eq_false_iff] at hnone
      exact hnone.2
    simp only [List.cons_append, cntGet, List.find?_cons, hp, Bool.false_eq_true, if_false]
    simp only [cntGet] at ih
    exact ih hrest

/-- Lookup after a counter increment. -/
theorem cntGet_cntIncBy (c : Cnt) (k k2 : String) (n : Nat) :
    cntGet (cntIncBy c k n) k2 = cntGet c k2 + (if k2 = k then n else 0) := by
  by_cases h : k2 = k
  · subst h
    rw [if_pos rfl, cntIncBy]
    by_cases hany : c.any (fun p => p.1 == k2)
    · rw [if_pos hany]
      exact cntGet_map_inc_self c k2 n hany
    · rw [if_neg hany]
      have hf : c.any (fun p => p.1 == k2) = false := by
        simp only [Bool.not_eq_true] at hany
        exact hany
      exact cntGet_append_self c k2 n hf
  · rw [if_neg h, Nat.add_zero]
    exact cntGet_cntIncBy_ne c k k2 n h

/-- A counter's `any`-by-key test is key membership. -/
theorem any_key_iff (c : Cnt) (k : String) :
    (c.any fun p => p.1 == k) = true ↔ k ∈ cntKeys c := by
  simp [List.any_eq_true, beq_iff_eq, cntKeys, List.mem_map]

/-- Mapping the increment-at-`k` function leaves the key list unchanged. -/
theorem cntKeys_map_inc (c : Cnt) (k : String) (n : Nat) :
    cntKeys (c.map (fun p => if p.1 == k then (p.1, p.2 + n) else p)) = cntKeys c := by
  induction c with
  | nil => rfl
  | cons p rest ih =>
    by_cases hp : p.1 = k
    · simp only [cntKeys, List.map_cons, show (p.1 == k) = true by simp [hp], if_true]
      simp only [cntKeys] at ih
      rw [ih]
    · simp only [cntKeys, List.map_cons, show (p.1 == k) = false by simp [hp],
        Bool.false_eq_true, if_false]
      simp only [cntKeys] at ih
      rw [ih]

/-- Key membership after a counter increment. -/
theorem mem_cntKeys_cntIncBy (c : Cnt) (k : String) (n : Nat) (k2 : String) :
    k2 ∈ cntKeys (cntIncBy c k n) ↔ k2 ∈ cntKeys c ∨ k2 = k := by
  rw [cntIncBy]
  by_cases hany : c.any (fun p => p.1 == k)
  · rw [if_pos hany, cntKeys_map_inc]
    have hk : k ∈ cntKeys c := (any_key_iff c k).mp hany
    constructor
    · exact Or.inl
    · rintro (h | h)
      · exact h
      · subst h; exact hk
  · rw [if_neg hany]
    simp [cntKeys]

/-- Increments preserve duplicate-freeness of the key list. -/
theorem nodup_cntKeys_cntIncBy (c : Cnt) (k : String) (n : Nat)
    (h : (cntKeys c).Nodup) : (cntKeys (cntIncBy c k n)).Nodup := by
  rw [cntIncBy]
  by_cases hany : c.any (fun p => p.1 == k)
  · rw [if_pos hany, cntKeys_map_inc]
    exact h
  · rw [if_neg hany]
    have hk : k ∉ cntKeys c := fun hm => hany ((any_key_iff c k).mpr hm)
    simp only [cntKeys, List.map_append]
    rw [List.nodup_append]
    refine ⟨h, List.nodup_singleton _, ?_⟩
    intro a ha hb
    simp only [List.map_cons, List.map_nil, List.mem_singleton] at hb
    subst hb
    exact hk ha

/-- Per-document token sets are duplicate-free. -/
theorem nodup_docUnique (items : List String) : (docUnique items).Nodup :=
  nodup_uniq _

/-- Lookup after updating a counter with a duplicate-free token list. -/
theorem cntGet_cntUpdateSet (ks : List String) (c : Cnt) (k : String) (hnd : ks.Nodup) :
    cntGet (cntUpdateSet c ks) k = cntGet c k + (if k ∈ ks then 1 else 0) := by
  induction ks generalizing c with
  | nil => simp [cntUpdateSet]
  | cons a t ih =>
    rcases List.nodup_cons.mp hnd with ⟨hat, hndt⟩
    have : cntUpdateSet c (a :: t) = cntUpdateSet (cntIncBy c a 1) t := rfl
    rw [this, ih _ hndt, cntGet_cntIncBy]
    by_cases hk : k = a
    · subst hk
      rw [if_pos rfl, if_neg hat, if_pos (List.mem_cons_self _ _)]
    · rw [if_neg hk]
      by_cases ht : k ∈ t
      · rw [if_pos ht, if_pos (List.mem_cons_of_mem _ ht)]
      · rw [if_neg ht, if_neg (by simp [List.mem_cons, hk, ht])]

/-- Key membership after a counter set-update. -/
theorem mem_cntKeys_cntUpdateSet (ks : List String) (c : Cnt) (k : String) :
    k ∈ cntKeys (cntUpdateSet c ks) ↔ k ∈ cntKeys c ∨ k ∈ ks := by
  induction ks generalizing c with
  | nil => simp [cntUpdateSet]
  | cons a t ih =>
    have : cntUpdateSet c (a :: t) = cntUpdateSet (cntIncBy c a 1) t := rfl
    rw [this, ih, mem_cntKeys_cntIncBy]
    simp only [List.mem_cons]
    tauto

/-- Set-updates preserve duplicate-freeness of the key list. -/
theorem nodup_cntKeys_cntUpdateSet (ks : List String) (c : Cnt)
    (h : (cntKeys c).Nodup) : (cntKeys (cntUpdateSet c ks)).Nodup := by
  induction ks generalizing c with
  | nil => exact h
  | cons a t ih =>
    exact ih _ (nodup_cntKeys_cntIncBy c a 1 h)

/-- Key membership after adding one counter to another. -/
theorem mem_cntKeys_cntAddCounts (d c : Cnt) (k : String) :
    k ∈ cntKeys (cntAddCounts c d) ↔ k ∈ cntKeys c ∨ k ∈ cntKeys d := by
  induction d generalizing c with
  | nil => simp [cntAddCounts, cntKeys]
  | cons p t ih =>
    have : cntAddCounts c (p :: t) = cntAddCounts (cntIncBy c p.1 p.2) t := rfl
    rw [this, ih, mem_cntKeys_cntIncBy]
    simp only [cntKeys, List.map_cons, List.mem_cons]
    tauto

/-- Counter addition preserves duplicate-freeness of the key list. -/
theorem nodup_cntKeys_cntAddCounts (d c : Cnt)
    (h : (cntKeys c).Nodup) : (cntKeys (cntAddCounts c d)).Nodup := by
  induction d generalizing c with
  | nil => exact h
  | cons p t ih =>
    exact ih _ (nodup_cntKeys_cntIncBy c p.1 p.2 h)

/-- On duplicate-free keys, lookup of a member returns its stored count. -/
theorem cntGet_eq_of_mem (c : Cnt) (p : String × Nat)
    (hnd : (cntKeys c).Nodup) (hp : p ∈ c) : cntGet c p.1 = p.2 := by
  induction c with
  | nil => cases hp
  | cons q rest ih =>
    rcases List.nodup_cons.mp hnd with ⟨hq, hndr⟩
    rcases List.mem_cons.mp hp with h | h
    · subst h
      simp [cntGet, List.find?_cons]
    · have hne : (q.1 == p.1) = false := by
        simp only [beq_eq_false_iff_ne, ne_eq]
        intro he
        exact hq (he ▸ List.mem_map_of_mem Prod.fst h)
      simp only [cntGet, List.find?_cons, hne, Bool.false_eq_true, if_false]
      simpa [cntGet] using ih hndr h

/-- Lookup in the document-frequency fold. -/
theorem cntGet_df_fold (docs : List (List String)) (c : Cnt) (k : String) :
    cntGet (docs.foldl (fun df items => cntUpdateSet df (docUnique items)) c) k =
      cntGet c k + docs.countP (fun d => decide (k ∈ docUnique d)) := by
  induction docs generalizing c with
  | nil => simp
  | cons d t ih =>
    rw [List.foldl_cons, ih, cntGet_cntUpdateSet (docUnique d) c k (nodup_docUnique d), List.countP_cons]
    by_cases h : k ∈ docUnique d
    · simp only [h, if_true, decide_eq_true_eq, if_pos h, List.countP_cons]
      omega
    · simp [h]

/-- The document-frequency count of a token is the number of documents
whose deduplicated normalized token set contains it. -/
theorem cntGet_compute_document_frequency (docs : List (List String)) (k : String) :
    cntGet (compute_document_frequency docs).1 k =
      docs.countP (fun d => decide (k ∈ docUnique d)) := by
  rw [compute_document_frequency]
  simpa [cntGet, List.find?_nil] using cntGet_df_fold docs [] k

/-- Keys of the document-frequency counter come from some document. -/
theorem mem_cntKeys_df_fold (docs : List (List String)) (c : Cnt) (k : String)
    (h : k ∈ cntKeys (docs.foldl (fun df items => cntUpdateSet df (docUnique items)) c)) :
    k ∈ cntKeys c ∨ ∃ d ∈ docs, k ∈ docUnique d := by
  induction docs generalizing c with
  | nil => exact Or.inl h
  | cons d t ih =>
    rw [List.foldl_cons] at h
    rcases ih _ h with h2 | ⟨d2, hd2, hk2⟩
    · rcases (mem_cntKeys_cntUpdateSet _ _ _).mp h2 with h3 | h3
      · exact Or.inl h3
      · exact Or.inr ⟨d, List.mem_cons_self _ _, h3⟩
    · exact Or.inr ⟨d2, List.mem_cons_of_mem _ hd2, hk2⟩

/-- Keys of `compute_document_frequency` come from some document. -/
theorem mem_cntKeys_df (docs : List (List String)) (k : String)
    (h : k ∈ cntKeys (compute_document_frequency docs).1) :
    ∃ d ∈ docs, k ∈ docUnique d := by
  rcases mem_cntKeys_df_fold docs [] k h with h2 | h2
  · cases h2
  · exact h2

/-- The document-frequency counter has duplicate-free keys. -/
theorem nodup_cntKeys_df (docs : List (List String)) :
    (cntKeys (compute_document_frequency docs).1).Nodup := by
  rw [compute_document_frequency]
  have haux : ∀ (ds : List (List String)) (c : Cnt), (cntKeys c).Nodup →
      (cntKeys (ds.foldl (fun df items => cntUpdateSet df (docUnique items)) c)).Nodup := by
    intro ds
    induction ds with
    | nil => exact fun c h => h
    | cons d t ih => exact fun c h => ih _ (nodup_cntKeys_cntUpdateSet _ _ h)
  exact haux docs [] (by simp [cntKeys])

/-! Lemmas on the stable sorts. -/

/-- Stable insertion is a permutation of consing. -/
theorem insSorted_perm (le : (String × Nat) → (String × Nat) → Bool) (x : String × Nat) :
    ∀ l : Cnt, (insSorted le x l).Perm (x :: l)
  | [] => List.Perm.refl _
  | y :: ys => by
    by_cases h : le x y
    · rw [insSorted, if_pos h]
    · rw [insSorted, if_neg h]
      exact ((insSorted_perm le x ys).cons y).trans (List.Perm.swap x y ys)

/-- The counter sort is a permutation of its input. -/
theorem sortCnt_perm (le : (String × Nat) → (String × Nat) → Bool) :
    ∀ l : Cnt, (sortCnt le l).Perm l
  | [] => List.Perm.refl _
  | a :: t => by
    rw [sortCnt, List.foldr_cons]
    exact (insSorted_perm le a _).trans ((sortCnt_perm le t).cons a)

/-- Membership in the sorted counter. -/
theorem mem_mostCommon (c : Cnt) (p : String × Nat) : p ∈ mostCommon c ↔ p ∈ c :=
  (sortCnt_perm leDescCount c).mem_iff

/-- Stable insertion preserves pairwise order. -/
theorem pairwise_insSorted {R : (String × Nat) → (String × Nat) → Prop}
    (le : (String × Nat) → (String × Nat) → Bool)
    (hT : ∀ a b, le a b = true → R a b) (hF : ∀ a b, le a b = false → R b a)
    (htrans : ∀ a b c, R a b → R b c → R a c) (x : String × Nat) :
    ∀ l : Cnt, l.Pairwise R → (insSorted le x l).Pairwise R
  | [], _ => List.pairwise_cons.mpr ⟨by simp, List.Pairwise.nil⟩
  | y :: ys, h => by
    rcases List.pairwise_cons.mp h with ⟨hy, hys⟩
    by_cases hle : le x y
    · rw [insSorted, if_pos hle]
      refine List.pairwise_cons.mpr ⟨?_, h⟩
      intro z hz
      rcases List.mem_cons.mp hz with hz | hz
      · rw [hz]; exact hT x y hle
      · exact htrans x y z (hT x y hle) (hy z hz)
    · rw [insSorted, if_neg hle]
      refine List.pairwise_cons.mpr ⟨?_, pairwise_insSorted le hT hF htrans x ys hys⟩
      intro z hz
      rcases (insSorted_perm le x ys).mem_iff.mp hz with hz2
      rcases List.mem_cons.mp hz2 with hz3 | hz3
      · rw [hz3]
        exact hF x y (by simpa using hle)
      · exact hy z hz3

/-- The sorted counter is pairwise ordered. -/
theorem pairwise_sortCnt {R : (String × Nat) → (String × Nat) → Prop}
    (le : (String × Nat) → (String × Nat) → Bool)
    (hT : ∀ a b, le a b = true → R a b) (hF : ∀ a b, le a b = false → R b a)
    (htrans : ∀ a b c, R a b → R b c → R a c) :
    ∀ l : Cnt, (sortCnt le l).Pairwise R
  | [] => List.Pairwise.nil
  | a :: t => by
    rw [sortCnt, List.foldr_cons]
    exact pairwise_insSorted le hT hF htrans a _ (pairwise_sortCnt le hT hF htrans t)

/-- Sorted ranking: `most_common` output is sorted by descending count. -/
theorem sortedDesc_mostCommon (c : Cnt) :
    (mostCommon c).Pairwise (fun a b => b.2 ≤ a.2) := by
  refine pairwise_sortCnt leDescCount ?_ ?_ ?_ c
  · intro a b h
    simpa [leDescCount] using h
  · intro a b h
    simp only [leDescCount, decide_eq_false_iff_not, Nat.not_le] at h
    exact Nat.le_of_lt h
  · intro a b c h1 h2
    exact Nat.le_trans h2 h1

/-- Stable insertion preserves the subsequence of entries with any fixed
count (the formal statement of tie-stability). -/
theorem filter_insSorted (x : String × Nat) (n : Nat) :
    ∀ l : Cnt, (insSorted leDescCount x l).filter (fun p => p.2 == n) =
      (x :: l).filter (fun p => p.2 == n)
  | [] => rfl
  | y :: ys => by
    by_cases hle : leDescCount x y
    · rw [insSorted, if_pos hle]
    · rw [insSorted, if_neg hle]
      have hlt : x.2 < y.2 := by
        simp only [leDescCount, decide_eq_true_eq] at hle
        omega
      have hrec := filter_insSorted x n ys
      by_cases hx : x.2 = n
      · have hy : (y.2 == n) = false := by
          simp only [beq_eq_false_iff_ne, ne_eq]
          omega
        simp only [List.filter_cons, hy, Bool.false_eq_true, if_false,
          show (x.2 == n) = true by simp [hx], if_true] at hrec ⊢
        rw [hrec]
      · have hx2 : (x.2 == n) = false := by simp [hx]
        simp only [List.filter_cons, hx2, Bool.false_eq_true, if_false] at hrec ⊢
        rw [hrec]

/-- Stability: `most_common` keeps the original (insertion) order among entries of
equal count. -/
theorem filter_mostCommon (c : Cnt) (n : Nat) :
    (mostCommon c).filter (fun p => p.2 == n) = c.filter (fun p => p.2 == n) := by
  induction c with
  | nil => rfl
  | cons p t ih =>
    rw [mostCommon, sortCnt, List.foldr_cons]
    rw [show List.foldr (insSorted leDescCount) [] t = mostCommon t from rfl]
    rw [filter_insSorted p n (mostCommon t)]
    rw [List.filter_cons, List.filter_cons, ih]

/-- Insertion into the string sort is a permutation of consing. -/
theorem insStrAsc_perm (x : String) : ∀ l : List String, (insStrAsc x l).Perm (x :: l)
  | [] => List.Perm.refl _
  | y :: ys => by
    by_cases h : pyStrLt y x
    · rw [insStrAsc, if_pos h]
      exact ((insStrAsc_perm x ys).cons y).trans (List.Perm.swap x y ys)
    · rw [insStrAsc, if_neg h]

/-- The string sort is a permutation of its input. -/
theorem sortStrings_perm : ∀ l : List String, (sortStrings l).Perm l
  | [] => List.Perm.refl _
  | a :: t => by
    rw [sortStrings, List.foldr_cons]
    exact (insStrAsc_perm a _).trans ((sortStrings_perm t).cons a)

/-- Membership in the string sort. -/
theorem mem_sortStrings (l : List String) (x : String) : x ∈ sortStrings l ↔ x ∈ l :=
  (sortStrings_perm l).mem_iff

/-- The string sort preserves duplicate-freeness. -/
theorem nodup_sortStrings (l : List String) (h : l.Nodup) : (sortStrings l).Nodup :=
  (sortStrings_perm l).nodup_iff.mpr h

/-! Ranking-table helper lemmas. -/

/-- The optionally truncated ranking is a sublist of the full ranking. -/
theorem mostCommonTop_sublist (c : Cnt) (top : Option Nat) :
    (mostCommonTop c top).Sublist (mostCommon c) := by
  cases top with
  | none => exact List.Sublist.refl _
  | some n => exact List.take_sublist n _

/-- Rows of `to_table` are sorted by descending count. -/
theorem to_table_sorted_aux (c : Cnt) (total : Nat) (top : Option Nat) :
    (to_table c total top).Pairwise (fun r s => s.count ≤ r.count) := by
  rw [to_table, List.pairwise_map]
  exact (sortedDesc_mostCommon c).sublist (mostCommonTop_sublist c top)

/-- The item column of `to_table` is the key column of the ranking. -/
theorem to_table_items_eq (c : Cnt) (total : Nat) (top : Option Nat) :
    (to_table c total top).map TRow.item = (mostCommonTop c top).map Prod.fst := by
  rw [to_table, List.map_map]
  rfl

/-- With duplicate-free keys, `to_table` emits no item twice. -/
theorem to_table_nodup (c : Cnt) (total : Nat) (top : Option Nat)
    (h : (cntKeys c).Nodup) : ((to_table c total top).map TRow.item).Nodup := by
  rw [to_table_items_eq]
  have h2 : ((mostCommon c).map Prod.fst).Nodup :=
    (((sortCnt_perm leDescCount c).map Prod.fst).nodup_iff).mpr h
  exact h2.sublist ((mostCommonTop_sublist c top).map Prod.fst)

/-- Deduplication ignores an immediate repetition. -/
theorem uniq_cons_cons (a : String) (l : List String) :
    uniq (a :: a :: l) = uniq (a :: l) := by
  simp [uniq, uniqAux]

/-- A token repeated within one document leaves the per-document token
set unchanged. -/
theorem docUnique_cons_cons (x : String) (d : List String) :
    docUnique (x :: x :: d) = docUnique (x :: d) := by
  by_cases ht : pyTruthyStrip x
  · simp only [docUnique, List.filter_cons, ht, if_true, List.map_cons]
    exact uniq_cons_cons _ _
  · simp only [docUnique, List.filter_cons, ht, Bool.false_eq_true, if_false]

attribute [local semireducible] Rat.inv Rat.mul Rat.add Rat.sub

/-- Claim C1: every document-frequency count is at most the total document
count; the count of a token equals the number of documents whose
deduplicated normalized token set contains it (so within-document
multiplicity is irrelevant); repeating a token inside one document does
not change that document's token set. -/
theorem df_count_le_total_and_once_per_doc (docs : List (List String)) (k : String) :
    cntGet (compute_document_frequency docs).1 k ≤ (compute_document_frequency docs).2 ∧
    cntGet (compute_document_frequency docs).1 k =
      docs.countP (fun d => decide (k ∈ docUnique d)) ∧
    ∀ (x : String) (d : List String), docUnique (x :: x :: d) = docUnique (x :: d) := by
  refine ⟨?_, cntGet_compute_document_frequency docs k, fun x d => docUnique_cons_cons x d⟩
  rw [cntGet_compute_document_frequency docs k]
  exact List.countP_le_length _

/-- Claim C6: for a positive total, each percentage emitted by `to_table`
equals `round(100 * count / total, 1)`; the empty document list yields
the empty counter with total 0, and `to_table` on it is empty (no
division occurs since the zero total short-circuits to 0.0). -/
theorem to_table_percent_formula_and_empty :
    (∀ (c : Cnt) (total : Nat) (top : Option Nat), 0 < total →
      ∀ r ∈ to_table c total top,
        r.percent = pyRound1 ((100 * (r.count : ℚ)) / (total : ℚ))) ∧
    compute_document_frequency ([] : List (List String)) = ([], 0) ∧
    to_table [] 0 none = [] := by
  refine ⟨?_, rfl, rfl⟩
  intro c total top h r hr
  rw [to_table] at hr
  rcases List.mem_map.mp hr with ⟨p, hp, hre⟩
  subst hre
  simp only
  rw [if_neg (Nat.pos_iff_ne_zero.mp h)]
  congr 1
  ring

/-- Witness for the percentage formula at count 1 of 3 documents
(33.3 percent). -/
theorem to_table_percent_formula_and_empty_witness :
    0 < 3 ∧ (⟨"python", 1, (333:ℚ)/10⟩ : TRow) ∈ to_table [("python", 1)] 3 none ∧
      (⟨"python", 1, (333:ℚ)/10⟩ : TRow).percent =
        pyRound1 ((100 * ((⟨"python", 1, (333:ℚ)/10⟩ : TRow).count : ℚ)) / ((3 : Nat) : ℚ)) :=
  ⟨by decide, by decide,
    to_table_percent_formula_and_empty.1 [("python", 1)] 3 none (by decide) _ (by decide)⟩

/-- Claim C5 counterexample: with two tied counts inserted as "b" then "a",
`to_table` keeps insertion order ["b", "a"], not the lexical order
["a", "b"] (pyStrLt "a" "b" shows "a" sorts lexically first). -/
theorem to_table_tie_not_lexical :
    (to_table [("b", 1), ("a", 1)] 2 none).map TRow.item = ["b", "a"] ∧
    pyStrLt "a" "b" = true ∧ ["b", "a"] ≠ ["a", "b"] :=
  ⟨by decide, by decide, by decide⟩

/-- Claim C5 (amended): `to_table` rows are sorted by descending document
count, ties are broken by the counter's insertion order (the ranking is
stable: entries of any fixed count keep their original order), and for a
counter with duplicate-free keys no canonical token appears twice. -/
theorem to_table_sorted_nodup_stable (c : Cnt) (total : Nat) (top : Option Nat) :
    (to_table c total top).Pairwise (fun r s => s.count ≤ r.count) ∧
    ((cntKeys c).Nodup → ((to_table c total top).map TRow.item).Nodup) ∧
    ∀ n, (mostCommon c).filter (fun p => p.2 == n) = c.filter (fun p => p.2 == n) :=
  ⟨to_table_sorted_aux c total top, to_table_nodup c total top,
    fun n => filter_mostCommon c n⟩

/-- Witness for the amended C5 on a concrete two-row table. -/
theorem to_table_sorted_nodup_stable_witness :
    (cntKeys [("b", 2), ("a", 1)]).Nodup ∧
    ((to_table [("b", 2), ("a", 1)] 2 none).map TRow.item).Nodup :=
  ⟨by decide, (to_table_sorted_nodup_stable [("b", 2), ("a", 1)] 2 none).2.1 (by decide)⟩

/-! Dictionary and canonical-map helper lemmas. -/

/-- A dict lookup either returns the first entry with the key, or the
default when no entry has the key. -/
theorem dictGet_cases (m : SMap) (k d : String) :
    (∃ p ∈ m, p.1 = k ∧ dictGet m k d = p.2) ∨
    (dictGet m k d = d ∧ ∀ p ∈ m, p.1 ≠ k) := by
  rcases hf : m.find? (fun p => p.1 == k) with _ | p
  · refine Or.inr ⟨by rw [dictGet, hf], ?_⟩
    intro p hp
    have := List.find?_eq_none.mp hf p hp
    simpa using this
  · refine Or.inl ⟨p, List.mem_of_find?_eq_some hf, ?_, by rw [dictGet, hf]⟩
    have := List.find?_some hf
    simpa using this

/-- On duplicate-free keys, lookup of a member returns its stored value. -/
theorem dictFind_eq_of_mem (m : SMap) (p : String × String)
    (hnd : (m.map Prod.fst).Nodup) (hp : p ∈ m) : dictFind m p.1 = some p.2 := by
  induction m with
  | nil => cases hp
  | cons q rest ih =>
    rcases List.nodup_cons.mp hnd with ⟨hq, hndr⟩
    rcases List.mem_cons.mp hp with h | h
    · subst h
      simp [dictFind, List.find?_cons]
    · have hne : (q.1 == p.1) = false := by
        simp only [beq_eq_false_iff_ne, ne_eq]
        intro he
        exact hq (he ▸ List.mem_map_of_mem Prod.fst h)
      simp only [dictFind, List.find?_cons, hne, Bool.false_eq_true, if_false]
      simpa [dictFind] using ih hndr h

/-- The key column of `canonicalize_items` is the sorted deduplicated
normalized input token list. -/
theorem canonicalize_items_keys (oracle : SMap) (items : List String) :
    (canonicalize_items oracle items).map Prod.fst =
      sortStrings (uniq ((items.filter pyTruthyStrip).map normalize_token)) := by
  rw [canonicalize_items]
  by_cases h : (sortStrings (uniq ((items.filter pyTruthyStrip).map normalize_token))).isEmpty
  · rw [if_pos h]
    rw [List.isEmpty_iff] at h
    rw [h]
    rfl
  · rw [if_neg h, List.map_map]
    have hcomp : (Prod.fst ∘ fun it : String =>
        (it, if normalize_token (dictGet oracle it it) = "" then it
             else normalize_token (dictGet oracle it it))) = id := rfl
    rw [hcomp, List.map_id]

/-- The canonical-map keys are duplicate-free. -/
theorem canonicalize_items_keys_nodup (oracle : SMap) (items : List String) :
    ((canonicalize_items oracle items).map Prod.fst).Nodup := by
  rw [canonicalize_items_keys]
  exact nodup_sortStrings _ (nodup_uniq _)

/-- Every key of the canonical map carries the fallback-or-label value. -/
theorem canonicalize_items_entry (oracle : SMap) (items : List String) (it : String)
    (h : it ∈ (canonicalize_items oracle items).map Prod.fst) :
    (it, if normalize_token (dictGet oracle it it) = "" then it
         else normalize_token (dictGet oracle it it)) ∈ canonicalize_items oracle items := by
  rw [canonicalize_items_keys] at h
  rw [canonicalize_items]
  by_cases he : (sortStrings (uniq ((items.filter pyTruthyStrip).map normalize_token))).isEmpty
  · rw [List.isEmpty_iff] at he
    rw [he] at h
    cases h
  · rw [if_neg he]
    exact List.mem_map.mpr ⟨it, h, rfl⟩

/-- Every key of the canonical map is a normalization fixpoint. -/
theorem canonicalize_items_key_fixed (oracle : SMap) (items : List String) (it : String)
    (h : it ∈ (canonicalize_items oracle items).map Prod.fst) :
    normalize_token it = it := by
  rw [canonicalize_items_keys, mem_sortStrings, mem_uniq] at h
  rcases List.mem_map.mp h with ⟨x, _, hx⟩
  rw [← hx]
  exact normalize_token_idem x

/-- Keys and values of the canonical map are normalization fixpoints. -/
theorem canonicalize_items_val_fixed (oracle : SMap) (items : List String)
    (p : String × String) (hp : p ∈ canonicalize_items oracle items) :
    normalize_token p.1 = p.1 ∧ normalize_token p.2 = p.2 := by
  have hk : p.1 ∈ (canonicalize_items oracle items).map Prod.fst :=
    List.mem_map_of_mem Prod.fst hp
  have hkey := canonicalize_items_key_fixed oracle items p.1 hk
  refine ⟨hkey, ?_⟩
  have hval : p.2 = if normalize_token (dictGet oracle p.1 p.1) = "" then p.1
      else normalize_token (dictGet oracle p.1 p.1) := by
    have hent := canonicalize_items_entry oracle items p.1 hk
    have hnd := canonicalize_items_keys_nodup oracle items
    have h1 := dictFind_eq_of_mem _ _ hnd hp
    have h2 := dictFind_eq_of_mem _ _ hnd hent
    simp only at h2
    rw [h1] at h2
    exact (Option.some.injEq _ _).mp h2
  rw [hval]
  by_cases hz : normalize_token (dictGet oracle p.1 p.1) = ""
  · rw [if_pos hz]
    exact hkey
  · rw [if_neg hz]
    exact normalize_token_idem _

/-- Claim C7 counterexample: the raw token "," passes the counter's raw-level
filter (`x and x.strip()`), normalizes to the empty string, and so the
empty token appears as a key with count 1. -/
theorem empty_token_in_table_counterexample :
    pyTruthyStrip "," = true ∧ normalize_token "," = "" ∧
    cntGet (compute_document_frequency [[","]]).1 "" = 1 ∧
    "" ∈ cntKeys (compute_document_frequency [[","]]).1 :=
  ⟨by decide, by decide, by decide, by decide⟩

/-- Claim C7 (amended): whitespace-only input normalizes to the empty string;
the empty token appears as a key only when some raw token that survives
the raw-level filter normalizes to empty (pure punctuation), and in
particular never for token lists produced by `apply_map` of a
`canonicalize_items` map, whose elements are nonempty normalization
fixpoints. -/
theorem normalizer_ws_empty_and_no_empty_key :
    (∀ s : String, (∀ c ∈ s.toList, pyWS c = true) → normalize_token s = "") ∧
    (∀ docs : List (List String),
      (∀ d ∈ docs, ∀ x ∈ d, pyTruthyStrip x = true → normalize_token x ≠ "") →
      "" ∉ cntKeys (compute_document_frequency docs).1) ∧
    (∀ (oracle : SMap) (items0 lst : List String),
      ∀ y ∈ apply_map (canonicalize_items oracle items0) lst,
        normalize_token y = y ∧ y ≠ "") := by
  refine ⟨normalize_token_of_ws, ?_, ?_⟩
  · intro docs hdocs hmem
    rcases mem_cntKeys_df docs "" hmem with ⟨d, hd, hk⟩
    rw [docUnique, mem_uniq] at hk
    rcases List.mem_map.mp hk with ⟨x, hx, hnx⟩
    rcases List.mem_filter.mp hx with ⟨hxd, hxt⟩
    exact hdocs d hd x hxd hxt hnx
  · intro oracle items0 lst y hy
    rw [apply_map] at hy
    rcases List.mem_filter.mp hy with ⟨hym, hyne⟩
    have hne : y ≠ "" := by simpa using hyne
    refine ⟨?_, hne⟩
    rcases List.mem_map.mp hym with ⟨x, _, hxy⟩
    rw [applyTok] at hxy
    rcases dictGet_cases (canonicalize_items oracle items0) (normalize_token x)
        (normalize_token x) with ⟨p, hp, hpk, hpv⟩ | ⟨hdef, _⟩
    · rw [← hxy, hpv]
      exact (canonicalize_items_val_fixed _ _ p hp).2
    · rw [← hxy, hdef]
      exact normalize_token_idem x

/-- Witness for the amended C7 on concrete inputs. -/
theorem normalizer_ws_empty_and_no_empty_key_witness :
    normalize_token " " = "" ∧
    "" ∉ cntKeys (compute_document_frequency [["a"]]).1 ∧
    (normalize_token "a" = "a" ∧ "a" ≠ "") :=
  ⟨normalizer_ws_empty_and_no_empty_key.1 " " (by decide),
   normalizer_ws_empty_and_no_empty_key.2.1 [["a"]] (by decide),
   normalizer_ws_empty_and_no_empty_key.2.2 [] ["a"] ["a"] "a" (by decide)⟩

/-- Claim C3: the canonical map has exactly one entry per normalized surviving
input token (and only such entries), and any token the oracle omits or
maps to an empty-normalizing label is mapped to itself. -/
theorem canonical_map_total_with_fallback (oracle : SMap) (items : List String) :
    (∀ x ∈ items, pyTruthyStrip x = true →
      normalize_token x ∈ (canonicalize_items oracle items).map Prod.fst) ∧
    ((canonicalize_items oracle items).map Prod.fst).Nodup ∧
    (∀ it ∈ (canonicalize_items oracle items).map Prod.fst,
      ∃ x ∈ items, pyTruthyStrip x = true ∧ normalize_token x = it) ∧
    (∀ it ∈ (canonicalize_items oracle items).map Prod.fst,
      ((∀ p ∈ oracle, p.1 ≠ it) ∨ normalize_token (dictGet oracle it it) = "") →
      dictFind (canonicalize_items oracle items) it = some it) := by
  refine ⟨?_, canonicalize_items_keys_nodup oracle items, ?_, ?_⟩
  · intro x hx ht
    rw [canonicalize_items_keys, mem_sortStrings, mem_uniq]
    exact List.mem_map.mpr ⟨x, List.mem_filter.mpr ⟨hx, ht⟩, rfl⟩
  · intro it hit
    rw [canonicalize_items_keys, mem_sortStrings, mem_uniq] at hit
    rcases List.mem_map.mp hit with ⟨x, hx, hnx⟩
    rcases List.mem_filter.mp hx with ⟨h1, h2⟩
    exact ⟨x, h1, h2, hnx⟩
  · intro it hit hcond
    have hent := canonicalize_items_entry oracle items it hit
    have hkey := canonicalize_items_key_fixed oracle items it hit
    have hval : (if normalize_token (dictGet oracle it it) = "" then it
        else normalize_token (dictGet oracle it it)) = it := by
      rcases hcond with habs | hemp
      · have hd : dictGet oracle it it = it := by
          rcases dictGet_cases oracle it it with ⟨p, hp, hpk, _⟩ | ⟨hdef, _⟩
          · exact absurd hpk (habs p hp)
          · exact hdef
        rw [hd, hkey]
        split <;> rfl
      · rw [if_pos hemp]
    rw [hval] at hent
    exact dictFind_eq_of_mem _ (it, it) (canonicalize_items_keys_nodup oracle items) hent

/-- Witness for C3 on the spec's own example: tokens ML, Machine
Learning, Python with an oracle mapping only "ml". -/
theorem canonical_map_total_with_fallback_witness :
    ("ML" ∈ ["ML", "Machine Learning", "Python"] ∧ pyTruthyStrip "ML" = true) ∧
    normalize_token "ML" ∈
      (canonicalize_items [("ml", "machine learning")]
        ["ML", "Machine Learning", "Python"]).map Prod.fst ∧
    (∀ p ∈ [("ml", "machine learning")], p.1 ≠ "python") ∧
    dictFind (canonicalize_items [("ml", "machine learning")]
      ["ML", "Machine Learning", "Python"]) "python" = some "python" :=
  ⟨⟨by decide, by decide⟩,
   (canonical_map_total_with_fallback [("ml", "machine learning")]
     ["ML", "Machine Learning", "Python"]).1 "ML" (by decide) (by decide),
   by decide,
   (canonical_map_total_with_fallback [("ml", "machine learning")]
     ["ML", "Machine Learning", "Python"]).2.2.2 "python" (by decide)
     (Or.inl (by decide))⟩

/-- Claim C8 counterexample: a cyclic oracle response a→b, b→c, c→a is stored
verbatim, so the canonical token "b" (the image of "a") maps on to "c"
and then to "a": one and two applications disagree. -/
theorem canonical_map_idempotence_counterexample :
    "b" ∈ (canonicalize_items [("a", "b"), ("b", "c"), ("c", "a")]
      ["a", "b", "c"]).map Prod.snd ∧
    applyTok (canonicalize_items [("a", "b"), ("b", "c"), ("c", "a")]
      ["a", "b", "c"]) "b" = "c" ∧
    applyTok (canonicalize_items [("a", "b"), ("b", "c"), ("c", "a")] ["a", "b", "c"])
      (applyTok (canonicalize_items [("a", "b"), ("b", "c"), ("c", "a")]
        ["a", "b", "c"]) "b") = "a" ∧
    ("a" : String) ≠ "c" ∧ ("c" : String) ≠ "b" :=
  ⟨by decide, by decide, by decide, by decide, by decide⟩

/-- Claim C8 (amended): canonical-map application is idempotent whenever the
produced map is closed, i.e. every stored value that is itself a key is
mapped to itself; `canonicalize_items` does not enforce this closure. -/
theorem canonical_map_idempotent_of_closed (oracle : SMap) (items : List String)
    (hclosed : ∀ p ∈ canonicalize_items oracle items,
      ∀ q ∈ canonicalize_items oracle items, q.1 = p.2 → q.2 = q.1) (t : String) :
    applyTok (canonicalize_items oracle items)
      (applyTok (canonicalize_items oracle items) t) =
      applyTok (canonicalize_items oracle items) t := by
  rcases dictGet_cases (canonicalize_items oracle items) (normalize_token t)
      (normalize_token t) with ⟨p, hp, hpk, hpv⟩ | ⟨hdef, _⟩
  · have ha : applyTok (canonicalize_items oracle items) t = p.2 := by
      rw [applyTok, hpv]
    rw [ha, applyTok, (canonicalize_items_val_fixed _ _ p hp).2]
    rcases dictGet_cases (canonicalize_items oracle items) p.2 p.2
        with ⟨q, hq, hqk, hqv⟩ | ⟨hdef2, _⟩
    · rw [hqv, hclosed p hp q hq hqk, hqk]
    · exact hdef2
  · have ha : applyTok (canonicalize_items oracle items) t = normalize_token t := by
      rw [applyTok, hdef]
    rw [ha, applyTok, normalize_token_idem]
    exact hdef

/-- Witness for the amended C8 on a closed concrete map. -/
theorem canonical_map_idempotent_of_closed_witness :
    (∀ p ∈ canonicalize_items [("aa", "bb")] ["aa", "bb"],
      ∀ q ∈ canonicalize_items [("aa", "bb")] ["aa", "bb"], q.1 = p.2 → q.2 = q.1) ∧
    applyTok (canonicalize_items [("aa", "bb")] ["aa", "bb"])
      (applyTok (canonicalize_items [("aa", "bb")] ["aa", "bb"]) "aa") =
      applyTok (canonicalize_items [("aa", "bb")] ["aa", "bb"]) "aa" :=
  ⟨by decide,
   canonical_map_idempotent_of_closed [("aa", "bb")] ["aa", "bb"] (by decide) "aa"⟩

/-- Claim C9 counterexample: with one posting demanding python and a
present PDF whose pages hold no text, `run` completes on the ordinary
path — the old `ResumePDFTool` returns the empty string without raising,
the run is byte-for-byte the same as one whose readable resume extracts
to nothing, the market table is reported, and the gap list is computed
and emitted silently; no distinct low-confidence or unavailable result
exists anywhere in the output. -/
theorem run_silent_on_empty_resume_counterexample :
    runPipeline [⟨["python"], [], [], []⟩] [] true [""] (fun _ => ⟨[], [], [], []⟩) =
      Except.ok (analyze [⟨["python"], [], [], []⟩] ⟨[], [], [], []⟩ []) ∧
    runPipeline [⟨["python"], [], [], []⟩] [] true [""] (fun _ => ⟨[], [], [], []⟩) =
      runPipeline [⟨["python"], [], [], []⟩] [] true ["a readable resume"]
        (fun _ => ⟨[], [], [], []⟩) ∧
    (analyze [⟨["python"], [], [], []⟩] ⟨[], [], [], []⟩ []).skills_table.map
      TRow.item = ["python"] ∧
    (analyze [⟨["python"], [], [], []⟩] ⟨[], [], [], []⟩ []).top10_missing =
      ["python"] :=
  ⟨rfl, rfl, by decide, by decide⟩

/-- Claim C9 (amended): a no-text PDF is not an error in the old
pipeline at all — `ResumePDFTool` (`old/tools.py`) returns the joined
page text, empty or not, without raising, so for a present file `run`
always completes: the aggregation and ranking stages report market
demand, but the gap analysis is neither withheld nor marked; it is
computed silently from whatever the extraction oracle makes of the
(possibly empty) resume text. Only a missing resume file raises, and
that uncaught exception aborts the entire run before `analyze`. -/
theorem run_silent_resume_handling (je : List Extraction) (cm : SMap)
    (pages : List String) (oracle : String → Extraction) :
    runPipeline je cm true pages oracle =
      Except.ok (analyze je (oracle (String.intercalate "\n" pages)) cm) ∧
    runPipeline je cm false pages oracle = Except.error "Resume file not found" :=
  ⟨rfl, rfl⟩

/-- Claim C4 counterexample: an extraction whose cloud list is ["Oracle Cloud"]
puts "oracle cloud" into the cloud-platform ranking; no vocabulary
filter drops it. -/
theorem cloud_table_out_of_vocab_counterexample :
    (analyze [⟨[], [], ["Oracle Cloud"], []⟩] ⟨[], [], [], []⟩ []).clouds_table.map
      TRow.item = ["oracle cloud"] ∧
    "oracle cloud" ∉ (["aws", "azure", "gcp"] : List String) ∧
    "oracle cloud" ∉ (["AWS", "Azure", "GCP"] : List String) :=
  ⟨by decide, by decide, by decide⟩

/-- Claim C4 (amended): the cloud ranking of `analyze` applies no vocabulary
filter; each entry is exactly the normalized canonical image of some raw
cloud-platform string of some extraction, whatever that string is — the
{AWS, Azure, GCP} restriction lives only in the prompt to the extraction
oracle. -/
theorem cloud_table_entries_from_raw (je : List Extraction) (r : Extraction)
    (cm : SMap) (t : TRow) (ht : t ∈ (analyze je r cm).clouds_table) :
    ∃ e ∈ je, ∃ x ∈ e.cloud_platforms, t.item = normalize_token (applyTok cm x) := by
  have h1 : t.item ∈ (analyze je r cm).clouds_table.map TRow.item :=
    List.mem_map_of_mem TRow.item ht
  have h2 : (analyze je r cm).clouds_table =
      to_table (compute_document_frequency (cloudsPerJob cm je)).1
        (compute_document_frequency (combinedPerJob cm je)).2 none := rfl
  rw [h2, to_table_items_eq] at h1
  rcases List.mem_map.mp h1 with ⟨p, hp, hpt⟩
  have hp2 : p ∈ (compute_document_frequency (cloudsPerJob cm je)).1 :=
    (mem_mostCommon _ p).mp ((mostCommonTop_sublist _ none).subset hp)
  have hkey : t.item ∈ cntKeys (compute_document_frequency (cloudsPerJob cm je)).1 := by
    rw [← hpt]
    exact List.mem_map_of_mem Prod.fst hp2
  rcases mem_cntKeys_df _ _ hkey with ⟨d, hd, hkd⟩
  rcases List.mem_map.mp hd with ⟨e, he, hde⟩
  rw [docUnique, mem_uniq] at hkd
  rcases List.mem_map.mp hkd with ⟨y, hy, hyt⟩
  rcases List.mem_filter.mp hy with ⟨hyd, _⟩
  rw [← hde, apply_map] at hyd
  rcases List.mem_filter.mp hyd with ⟨hym, _⟩
  rcases List.mem_map.mp hym with ⟨x, hx, hxy⟩
  exact ⟨e, he, x, hx, by rw [← hyt, ← hxy]⟩

/-- Witness for the amended C4 at the Oracle Cloud counterexample input. -/
theorem cloud_table_entries_from_raw_witness :
    ((⟨"oracle cloud", 1, (100 : ℚ)⟩ : TRow) ∈
      (analyze [⟨[], [], ["Oracle Cloud"], []⟩] ⟨[], [], [], []⟩ []).clouds_table) ∧
    (∃ e ∈ [(⟨[], [], ["Oracle Cloud"], []⟩ : Extraction)], ∃ x ∈ e.cloud_platforms,
      (⟨"oracle cloud", 1, (100 : ℚ)⟩ : TRow).item = normalize_token (applyTok [] x)) :=
  ⟨by decide,
   cloud_table_entries_from_raw [⟨[], [], ["Oracle Cloud"], []⟩] ⟨[], [], [], []⟩ []
     ⟨"oracle cloud", 1, (100 : ℚ)⟩ (by decide)⟩

/-- The combined market counter has duplicate-free keys. -/
theorem nodup_cntKeys_marketOf (cm : SMap) (je : List Extraction) :
    (cntKeys (marketOf cm je)).Nodup := by
  unfold marketOf
  apply nodup_cntKeys_cntAddCounts
  apply nodup_cntKeys_cntAddCounts
  apply nodup_cntKeys_cntAddCounts
  simp [cntKeys]

/-- Claim C2: the gap list never contains a token of the candidate's
canonicalized set, is ordered by non-increasing market count, holds at
most ten entries, and when at most ten tokens are missing it is exactly
the full missing list (no padding). -/
theorem gap_list_properties (cm : SMap) (je : List Extraction) (r : Extraction) :
    (∀ t ∈ (analyze je r cm).top10_missing, t ∉ resumeItems cm r) ∧
    (analyze je r cm).top10_missing.Pairwise
      (fun a b => cntGet (marketOf cm je) b ≤ cntGet (marketOf cm je) a) ∧
    (analyze je r cm).top10_missing.length ≤ 10 ∧
    ((missingOf cm je r).length ≤ 10 →
      (analyze je r cm).top10_missing = missingOf cm je r) := by
  have htop : (analyze je r cm).top10_missing = (missingOf cm je r).take 10 := rfl
  refine ⟨?_, ?_, ?_, ?_⟩
  · intro t ht
    rw [htop] at ht
    have ht2 : t ∈ missingOf cm je r := (List.take_sublist _ _).subset ht
    rw [missingOf] at ht2
    rcases List.mem_filter.mp ht2 with ⟨_, hcond⟩
    simp only [Bool.and_eq_true, Bool.not_eq_true', decide_eq_false_iff_not] at hcond
    exact hcond.2
  · have hnd := nodup_cntKeys_marketOf cm je
    have hpair1 : ((mostCommon (marketOf cm je)).map Prod.fst).Pairwise
        (fun a b => cntGet (marketOf cm je) b ≤ cntGet (marketOf cm je) a) := by
      rw [List.pairwise_map]
      refine (sortedDesc_mostCommon (marketOf cm je)).imp_of_mem ?_
      intro a b ha hb hle
      rw [cntGet_eq_of_mem _ a hnd ((mem_mostCommon _ a).mp ha),
        cntGet_eq_of_mem _ b hnd ((mem_mostCommon _ b).mp hb)]
      exact hle
    rw [htop, missingOf]
    exact (hpair1.sublist (List.filter_sublist _)).sublist (List.take_sublist _ _)
  · rw [htop]
    exact (List.length_take 10 _).le.trans (Nat.min_le_left _ _)
  · intro h
    rw [htop]
    exact List.take_of_length_le h

/-- Witness for C2: two postings demand kubernetes and docker, the
candidate already has docker, and the single-element gap list is the
full missing list. -/
theorem gap_list_properties_witness :
    ("kubernetes" ∈ (analyze [⟨["kubernetes", "docker"], [], [], []⟩,
        ⟨["kubernetes"], [], [], []⟩] ⟨["docker"], [], [], []⟩ []).top10_missing) ∧
    "kubernetes" ∉ resumeItems [] ⟨["docker"], [], [], []⟩ ∧
    (missingOf [] [⟨["kubernetes", "docker"], [], [], []⟩,
        ⟨["kubernetes"], [], [], []⟩] ⟨["docker"], [], [], []⟩).length ≤ 10 ∧
    (analyze [⟨["kubernetes", "docker"], [], [], []⟩, ⟨["kubernetes"], [], [], []⟩]
        ⟨["docker"], [], [], []⟩ []).top10_missing =
      missingOf [] [⟨["kubernetes", "docker"], [], [], []⟩, ⟨["kubernetes"], [], [], []⟩]
        ⟨["docker"], [], [], []⟩ :=
  ⟨by decide,
   (gap_list_properties [] [⟨["kubernetes", "docker"], [], [], []⟩,
      ⟨["kubernetes"], [], [], []⟩] ⟨["docker"], [], [], []⟩).1 "kubernetes" (by decide),
   by decide,
   (gap_list_properties [] [⟨["kubernetes", "docker"], [], [], []⟩,
      ⟨["kubernetes"], [], [], []⟩] ⟨["docker"], [], [], []⟩).2.2.2 (by decide)⟩

/-- Invariant preservation through one search response: collected
postings stay similar-titled, key-deduplicated with keys recorded in
`seen`, and within the limit; a `false` early-exit flag means the limit
was not yet reached. -/
theorem collectJobs_spec (targets : List String) (limit : Nat) :
    ∀ (jobs acc : List RawJob) (seen : List (String × String × String)),
    (∀ j ∈ acc, titleSimilar j.title targets = true) →
    (acc.map jobKey).Nodup →
    (∀ k ∈ acc.map jobKey, k ∈ seen) →
    acc.length < limit →
    (∀ j ∈ (collectJobs targets limit jobs acc seen).1,
      titleSimilar j.title targets = true) ∧
    ((collectJobs targets limit jobs acc seen).1.map jobKey).Nodup ∧
    (∀ k ∈ (collectJobs targets limit jobs acc seen).1.map jobKey,
      k ∈ (collectJobs targets limit jobs acc seen).2.1) ∧
    (collectJobs targets limit jobs acc seen).1.length ≤ limit ∧
    ((collectJobs targets limit jobs acc seen).2.2 = false →
      (collectJobs targets limit jobs acc seen).1.length < limit)
  | [], acc, seen, hsim, hnd, hseen, hlen => by
    rw [collectJobs]
    exact ⟨hsim, hnd, hseen, Nat.le_of_lt hlen, fun _ => hlen⟩
  | j :: rest, acc, seen, hsim, hnd, hseen, hlen => by
    by_cases hs : titleSimilar j.title targets
    · by_cases hk : jobKey j ∈ seen
      · rw [collectJobs, if_neg (by simp [hs]), if_pos hk]
        exact collectJobs_spec targets limit rest acc seen hsim hnd hseen hlen
      · have hsim2 : ∀ x ∈ acc ++ [j], titleSimilar x.title targets = true := by
          intro x hx
          rcases List.mem_append.mp hx with hx | hx
          · exact hsim x hx
          · rw [List.mem_singleton.mp hx]
            exact hs
        have hknotin : jobKey j ∉ acc.map jobKey := fun hmem => hk (hseen _ hmem)
        have hnd2 : ((acc ++ [j]).map jobKey).Nodup := by
          rw [List.map_append]
          rw [List.nodup_append]
          refine ⟨hnd, List.nodup_singleton _, ?_⟩
          intro a ha hb
          simp only [List.map_cons, List.map_nil, List.mem_singleton] at hb
          subst hb
          exact hknotin ha
        have hseen2 : ∀ k ∈ (acc ++ [j]).map jobKey, k ∈ jobKey j :: seen := by
          intro k hkm
          rw [List.map_append] at hkm
          rcases List.mem_append.mp hkm with hkm | hkm
          · exact List.mem_cons_of_mem _ (hseen k hkm)
          · simp only [List.map_cons, List.map_nil, List.mem_singleton] at hkm
            rw [hkm]
            exact List.mem_cons_self _ _
        by_cases hstop : limit ≤ (acc ++ [j]).length
        · rw [collectJobs, if_neg (by simp [hs]), if_neg hk]
          simp only [hstop, if_true]
          refine ⟨hsim2, hnd2, hseen2, ?_, ?_⟩
          · rw [List.length_append]
            simpa using hlen
          · intro hfl
            cases hfl
        · rw [collectJobs, if_neg (by simp [hs]), if_neg hk]
          simp only [hstop, if_false]
          exact collectJobs_spec targets limit rest (acc ++ [j]) (jobKey j :: seen)
            hsim2 hnd2 hseen2 (Nat.lt_of_not_le hstop)
    · rw [collectJobs, if_pos (by simp [hs])]
      exact collectJobs_spec targets limit rest acc seen hsim hnd hseen hlen

/-- Invariant preservation through the outer response loop. -/
theorem collectResponses_spec (targets : List String) (limit : Nat) :
    ∀ (rs : List (List RawJob)) (acc : List RawJob)
      (seen : List (String × String × String)),
    (∀ j ∈ acc, titleSimilar j.title targets = true) →
    (acc.map jobKey).Nodup →
    (∀ k ∈ acc.map jobKey, k ∈ seen) →
    acc.length < limit →
    (∀ j ∈ collectResponses targets limit rs acc seen,
      titleSimilar j.title targets = true) ∧
    ((collectResponses targets limit rs acc seen).map jobKey).Nodup ∧
    (collectResponses targets limit rs acc seen).length ≤ limit
  | [], acc, seen, hsim, hnd, hseen, hlen => by
    rw [collectResponses]
    exact ⟨hsim, hnd, Nat.le_of_lt hlen⟩
  | jobs :: restR, acc, seen, hsim, hnd, hseen, hlen => by
    rcases collectJobs_spec targets limit jobs acc seen hsim hnd hseen hlen
      with ⟨hsim2, hnd2, hseen2, hle2, hflag⟩
    rw [collectResponses]
    rcases hres : collectJobs targets limit jobs acc seen with ⟨c2, s2, early⟩
    rw [hres] at hsim2 hnd2 hseen2 hle2 hflag
    cases early with
    | true =>
      simp only [if_true]
      exact ⟨hsim2, hnd2, hle2⟩
    | false =>
      simp only [Bool.false_eq_true, if_false]
      exact collectResponses_spec targets limit restR c2 s2 hsim2 hnd2 hseen2 (hflag rfl)

/-- Claim C10 counterexample: with limit 0 and one matching job, `_run` still
returns that job, because the limit check happens only after an append. -/
theorem google_limit_zero_counterexample :
    (googleJobsRun ["ai"] [[⟨"ai", "c", "l"⟩]] 0).length = 1 ∧
    ¬((googleJobsRun ["ai"] [[⟨"ai", "c", "l"⟩]] 0).length ≤ 0) :=
  ⟨by decide, by decide⟩

/-- Claim C10 (amended): for any positive limit, the collector returns at most
`limit` postings, no two returned postings share a normalized
(title, company, location) key, and every returned posting's title
passes the 0.6 token-overlap similarity test against the targets. -/
theorem googleJobsRun_invariants (job_titles : List String)
    (responses : List (List RawJob)) (limit : Nat) (h : 1 ≤ limit) :
    (∀ j ∈ googleJobsRun job_titles responses limit,
      titleSimilar j.title job_titles = true) ∧
    ((googleJobsRun job_titles responses limit).map jobKey).Nodup ∧
    (googleJobsRun job_titles responses limit).length ≤ limit := by
  rw [googleJobsRun]
  exact collectResponses_spec job_titles limit _ [] [] (by simp) (by simp)
    (by simp) h

/-- Witness for the amended C10: two similar postings and one dissimilar
one, limit 5. -/
theorem googleJobsRun_invariants_witness :
    1 ≤ 5 ∧
    ((∀ j ∈ googleJobsRun ["ai engineer"]
        [[⟨"ai engineer", "c1", "l"⟩, ⟨"baker", "c2", "l"⟩]] 5,
      titleSimilar j.title ["ai engineer"] = true) ∧
    ((googleJobsRun ["ai engineer"]
        [[⟨"ai engineer", "c1", "l"⟩, ⟨"baker", "c2", "l"⟩]] 5).map jobKey).Nodup ∧
    (googleJobsRun ["ai engineer"]
        [[⟨"ai engineer", "c1", "l"⟩, ⟨"baker", "c2", "l"⟩]] 5).length ≤ 5) :=
  ⟨by decide,
   googleJobsRun_invariants ["ai engineer"]
     [[⟨"ai engineer", "c1", "l"⟩, ⟨"baker", "c2", "l"⟩]] 5 (by decide)⟩
